import Mathlib

set_option maxRecDepth 8000
set_option maxHeartbeats 1000000

/-!
Verification of the `rl::geom::Size` value type from
`src/engine/src/flutter/impeller/impeller/geometry/Size.h`.

The C++ type stores two IEEE-754 binary64 (`double`) fields.  We embed
doubles shallowly as the inductive type `FP`: a finite value carries its
exact numeric value as a rational (every finite double is a dyadic
rational), and the special values `Inf`, `NegInf` and `NaN` are separate
constructors.  Notes on the embedding:

* The two IEEE zeroes `+0.0` and `-0.0` are collapsed into the single
  rational `0`.  Every observation made by the claims goes through the
  C++ comparison operators, and IEEE comparison cannot distinguish the
  two zeroes (`-0.0 == +0.0` is true), so the collapse is observationally
  harmless for this development.
* All IEEE NaNs are collapsed into the single constructor `NaN`; the
  code never inspects NaN payloads.
* The carrier `FP.Finite q` ranges over all rationals.  A genuine finite
  binary64 value is one whose rational is fixed by the rounding function
  (`isRep` below).  Theorems that need their inputs to be genuine
  doubles take that as an explicit hypothesis; operations themselves are
  total on the carrier.
* Arithmetic results are rounded to nearest, ties to even, the IEEE
  default rounding mode and the one C++ uses for `double` arithmetic.
-/

inductive FP where
  | NaN : FP
  | Inf : FP
  | NegInf : FP
  | Finite : ℚ → FP
deriving DecidableEq

/-- IEEE equality (`==` on doubles): NaN compares false with everything,
including itself; otherwise values are equal iff they denote the same
extended real. -/
def fpEq : FP → FP → Bool
  | FP.NaN, _ => false
  | _, FP.NaN => false
  | FP.Inf, FP.Inf => true
  | FP.NegInf, FP.NegInf => true
  | FP.Finite a, FP.Finite b => a = b
  | _, _ => false

/-- IEEE inequality (`!=` on doubles): true on any NaN operand, otherwise
the numeric disequality. -/
def fpNe : FP → FP → Bool
  | FP.NaN, _ => true
  | _, FP.NaN => true
  | FP.Inf, FP.Inf => false
  | FP.NegInf, FP.NegInf => false
  | FP.Finite a, FP.Finite b => a ≠ b
  | _, _ => true

/-- IEEE strict less-than on doubles: false on any NaN operand. -/
def fpLt : FP → FP → Bool
  | FP.NaN, _ => false
  | _, FP.NaN => false
  | FP.Inf, _ => false
  | _, FP.Inf => true
  | FP.NegInf, FP.NegInf => false
  | FP.NegInf, _ => true
  | _, FP.NegInf => false
  | FP.Finite a, FP.Finite b => a < b

/-- IEEE less-or-equal on doubles. -/
def fpLe (a b : FP) : Bool := fpLt a b || fpEq a b

/-- `std::max(a, b)` as specified by the C++ standard library:
`(a < b) ? b : a`, where `<` is the IEEE comparison. -/
def cppMax (a b : FP) : FP := if fpLt a b then b else a

/-- Power of two as a bit shift; `Nat.shiftLeft` evaluates fast both in
the elaborator and in the kernel, unlike a large `2 ^ n` literal. -/
def pow2 (n : ℕ) : ℕ := Nat.shiftLeft 1 n

/-- Binary search for the floor of the base-2 logarithm: with the
invariant `pow2 lo ≤ n < pow2 hi` the search narrows the interval to
width one in logarithmically many steps. -/
def log2Between (n : ℕ) : ℕ → ℕ → ℕ → ℕ
  | 0, lo, _ => lo
  | f + 1, lo, hi =>
    if hi ≤ lo + 1 then lo
    else
      if pow2 ((lo + hi) / 2) ≤ n then log2Between n f ((lo + hi) / 2) hi
      else log2Between n f lo ((lo + hi) / 2)

/-- Floor of the base-2 logarithm, exact for `1 ≤ n < 2 ^ 4400`. -/
def qlog2 (n : ℕ) : ℕ := log2Between n 16 0 4400

/-- Floor of the base-2 logarithm of `|q|`, computed from
`⌊|q| * 2 ^ 2400⌋`.  It is exact for every rational with
`2 ^ (-1075) < |q| < 2 ^ 1024`; the rounding function only consults it
in that range. -/
def qexp (q : ℚ) : ℤ :=
  (qlog2 (Rat.floor (|q| * ((pow2 2400 : ℕ) : ℚ))).toNat : ℤ) - 2400

/-- Round a rational to the nearest integer, ties to even. -/
def rnEven (r : ℚ) : ℤ :=
  if (1 : ℚ) / 2 < r - Rat.floor r then Rat.floor r + 1
  else if r - Rat.floor r < (1 : ℚ) / 2 then Rat.floor r
  else if Rat.floor r % 2 = 0 then Rat.floor r else Rat.floor r + 1

/-- Multiply a rational by `2 ^ k` for an integer `k`. -/
def mulTwoZ (q : ℚ) (k : ℤ) : ℚ :=
  if 0 ≤ k then q * ((pow2 k.toNat : ℕ) : ℚ) else q / ((pow2 (-k).toNat : ℕ) : ℚ)

/-- Round an exact rational to the nearest binary64 value (round to
nearest, ties to even), the rounding IEEE-754 prescribes for the result
of every `double` operation.  A magnitude at or above `2 ^ 1024` always
overflows to infinity and a magnitude at or below `2 ^ (-1075)` (half
the smallest subnormal) always rounds to zero, so those ranges are
dispatched first; in between, the unit in the last place is
`2 ^ (e - 52)` for normal values and `2 ^ (-1074)` in the subnormal
range, and the scaled value is rounded to the nearest integer, ties to
even, with a final overflow check at the top of the range. -/
def fpRoundM (q : ℚ) (u : ℤ) : FP :=
  if ((pow2 1024 : ℕ) : ℚ) ≤ |mulTwoZ ((rnEven (mulTwoZ q (-u)) : ℤ) : ℚ) u|
  then (if q < 0 then FP.NegInf else FP.Inf)
  else FP.Finite (mulTwoZ ((rnEven (mulTwoZ q (-u)) : ℤ) : ℚ) u)

def fpRound (q : ℚ) : FP :=
  if q = 0 then FP.Finite 0
  else if ((pow2 1024 : ℕ) : ℚ) ≤ |q| then (if q < 0 then FP.NegInf else FP.Inf)
  else if |q| * ((pow2 1075 : ℕ) : ℚ) ≤ 1 then FP.Finite 0
  else fpRoundM q (max (qexp q - 52) (-1074))

/-- A rational is (the value of) a genuine finite binary64 number exactly
when the rounding function fixes it. -/
def isRep (q : ℚ) : Prop := fpRound q = FP.Finite q

instance isRepDecidable : DecidablePred isRep := fun q =>
  inferInstanceAs (Decidable (fpRound q = FP.Finite q))

/-- IEEE addition of doubles: NaN is absorbing, infinities of opposite
sign give NaN, an infinity otherwise dominates, and a finite sum is the
correctly rounded exact sum. -/
def fpAdd : FP → FP → FP
  | FP.NaN, _ => FP.NaN
  | _, FP.NaN => FP.NaN
  | FP.Inf, FP.NegInf => FP.NaN
  | FP.NegInf, FP.Inf => FP.NaN
  | FP.Inf, _ => FP.Inf
  | _, FP.Inf => FP.Inf
  | FP.NegInf, _ => FP.NegInf
  | _, FP.NegInf => FP.NegInf
  | FP.Finite a, FP.Finite b => fpRound (a + b)

/-- IEEE subtraction of doubles: NaN is absorbing, `∞ - ∞` and
`-∞ - (-∞)` give NaN, an infinite operand otherwise decides the sign,
and a finite difference is the correctly rounded exact difference. -/
def fpSub : FP → FP → FP
  | FP.NaN, _ => FP.NaN
  | _, FP.NaN => FP.NaN
  | FP.Inf, FP.Inf => FP.NaN
  | FP.NegInf, FP.NegInf => FP.NaN
  | FP.Inf, _ => FP.Inf
  | FP.NegInf, _ => FP.NegInf
  | _, FP.Inf => FP.NegInf
  | _, FP.NegInf => FP.Inf
  | FP.Finite a, FP.Finite b => fpRound (a - b)

/-- IEEE multiplication of doubles: NaN is absorbing, `∞ × 0` gives NaN,
an infinity times a nonzero value is a signed infinity, and a finite
product is the correctly rounded exact product. -/
def fpMul : FP → FP → FP
  | FP.NaN, _ => FP.NaN
  | _, FP.NaN => FP.NaN
  | FP.Inf, FP.Inf => FP.Inf
  | FP.Inf, FP.NegInf => FP.NegInf
  | FP.NegInf, FP.Inf => FP.NegInf
  | FP.NegInf, FP.NegInf => FP.Inf
  | FP.Inf, FP.Finite b => if b = 0 then FP.NaN else if b < 0 then FP.NegInf else FP.Inf
  | FP.Finite a, FP.Inf => if a = 0 then FP.NaN else if a < 0 then FP.NegInf else FP.Inf
  | FP.NegInf, FP.Finite b => if b = 0 then FP.NaN else if b < 0 then FP.Inf else FP.NegInf
  | FP.Finite a, FP.NegInf => if a = 0 then FP.NaN else if a < 0 then FP.Inf else FP.NegInf
  | FP.Finite a, FP.Finite b => fpRound (a * b)

/-- The `Size` struct of `Size.h`: two `double` fields. -/
structure Size where
  width : FP
  height : FP
deriving DecidableEq

/-- The explicit constructor `Size(width, height)` for finite literals. -/
def mkSize (w h : ℚ) : Size := ⟨FP.Finite w, FP.Finite h⟩

/-- `Size operator*(double scale) const { return {width * scale, height * scale}; }` -/
def Size.scale (self : Size) (k : FP) : Size :=
  ⟨fpMul self.width k, fpMul self.height k⟩

/-- `bool operator==(const Size& s) const { return s.width == width && s.height == height; }` -/
def Size.beq (self s : Size) : Bool :=
  fpEq s.width self.width && fpEq s.height self.height

/-- `bool operator!=(const Size& s) const { return s.width != width || s.height != height; }` -/
def Size.bne (self s : Size) : Bool :=
  fpNe s.width self.width || fpNe s.height self.height

/-- `Size operator+(const Size& s) const { return {width + s.width, height + s.height}; }` -/
def Size.add (self s : Size) : Size :=
  ⟨fpAdd self.width s.width, fpAdd self.height s.height⟩

/-- `Size operator-(const Size& s) const { return {width - s.width, height - s.height}; }` -/
def Size.sub (self s : Size) : Size :=
  ⟨fpSub self.width s.width, fpSub self.height s.height⟩

/-- `Size unionWith(const Size& o) const` : per-axis `std::max`. -/
def Size.unionWith (self o : Size) : Size :=
  ⟨cppMax self.width o.width, cppMax self.height o.height⟩

/-- `bool isZero() const { return width * height == 0.0; }` -/
def Size.isZero (self : Size) : Bool :=
  fpEq (fpMul self.width self.height) (FP.Finite 0)

/-- `bool isPositive() const { return width > 0.0 && height > 0.0; }`
(`a > b` is the IEEE comparison `b < a`). -/
def Size.isPositive (self : Size) : Bool :=
  fpLt (FP.Finite 0) self.width && fpLt (FP.Finite 0) self.height

/-- The value `m` is the maximum of `x` and `y`: it is one of them and
dominates both in the IEEE order. -/
def isMaxOf (m x y : FP) : Prop :=
  (m = x ∨ m = y) ∧ fpLe x m = true ∧ fpLe y m = true

/-- The value is a genuine binary64 datum: the special values are, and a
finite value is one whose rational the rounding function fixes. -/
def validFP : FP → Prop
  | FP.Finite q => isRep q
  | _ => True

instance validFPDecidable (x : FP) : Decidable (validFP x) :=
  match x with
  | FP.NaN => isTrue trivial
  | FP.Inf => isTrue trivial
  | FP.NegInf => isTrue trivial
  | FP.Finite q => isRepDecidable q

/-- The binary64 value nearest to the literal `1e-200`. -/
def oneEMinus200 : FP := fpRound (1 / 10 ^ 200)

/-!
Serialization.  `Size.h` only declares `std::string toString() const` and
`void fromString(const std::string&)`; their definitions are not part of
the excerpted source, so the functions below are modelled from the spec
(§4.1, §6, §7).  Strings are embedded as `List Char` (the character
content of the `std::string`).  The documented concrete choices, all
left open by the spec and fixed here:

* `toString` renders `"<width>x<height>"` with separator `x` and each
  scalar as an exact decimal numeral: optional `-` sign, integer part,
  and, when the value is not an integer, `.` followed by the fractional
  digits with trailing zeros removed.  Every finite binary64 value is an
  integer multiple of `2 ^ (-1074)`, so it has an exact decimal form
  with at most 1074 fractional digits and the rendering is lossless.
* `fromString` accepts exactly the grammar
  `numeral := "-"? digit+ ("." digit+)?`, `input := numeral "x" numeral`
  (no whitespace, no exponent notation), evaluates each numeral exactly
  and rounds it to binary64; a numeral that overflows to infinity is
  rejected.  On any failure the receiver is set to the deterministic
  failure state `(0, 0)`; this is the single `ParseError` of the spec's
  error taxonomy, surfaced to the caller as `none`.
-/

/-- Power of ten, computed by squaring with logarithmic fuel so that it
stays cheap to evaluate in the kernel; exact for `n < 2 ^ 40`, which
covers every exponent the serializer uses (at most 1074). -/
def powFuel : ℕ → ℕ → ℕ → ℕ
  | 0, _, _ => 1
  | f + 1, b, n =>
    if n = 0 then 1
    else if n % 2 = 0 then powFuel f b (n / 2) * powFuel f b (n / 2)
    else powFuel f b (n / 2) * powFuel f b (n / 2) * b

def pow10 (n : ℕ) : ℕ := powFuel 40 10 n

/-- The character for a decimal digit `d < 10`. -/
def digitChar (d : ℕ) : Char :=
  if d = 0 then '0' else if d = 1 then '1' else if d = 2 then '2'
  else if d = 3 then '3' else if d = 4 then '4' else if d = 5 then '5'
  else if d = 6 then '6' else if d = 7 then '7' else if d = 8 then '8' else '9'

/-- The value of a decimal digit character, `none` for any other character. -/
def digVal (c : Char) : Option ℕ :=
  if c = '0' then some 0 else if c = '1' then some 1 else if c = '2' then some 2
  else if c = '3' then some 3 else if c = '4' then some 4 else if c = '5' then some 5
  else if c = '6' then some 6 else if c = '7' then some 7 else if c = '8' then some 8
  else if c = '9' then some 9 else none

/-- Little-endian decimal digits of `n`; correct whenever `n ≤ f`. -/
def natDigsF : ℕ → ℕ → List Char
  | 0, _ => []
  | f + 1, n => if n = 0 then [] else digitChar (n % 10) :: natDigsF f (n / 10)

/-- Decimal rendering of a natural number, no sign, no leading zeros
(except the single digit of zero itself). -/
def printNat (n : ℕ) : List Char :=
  if n = 0 then ['0'] else (natDigsF n n).reverse

/-- Fold decimal digit characters onto an accumulator; `none` on any
non-digit. -/
def parseNatAcc : List Char → ℕ → Option ℕ
  | [], acc => some acc
  | c :: t, acc =>
    match digVal c with
    | none => none
    | some d => parseNatAcc t (acc * 10 + d)

/-- Parse a nonempty string of decimal digits. -/
def parseNat : List Char → Option ℕ
  | [] => none
  | l => parseNatAcc l 0

/-- Split at the first occurrence of `sep`: `some (before, after)`, or
`none` when `sep` does not occur. -/
def splitAtChar (sep : Char) : List Char → Option (List Char × List Char)
  | [] => none
  | c :: t =>
    if c = sep then some ([], t)
    else
      match splitAtChar sep t with
      | none => none
      | some p => some (c :: p.1, p.2)

/-- Number of trailing decimal zeros of `n` (for `0 < n < 10 ^ f`). -/
def countZeros : ℕ → ℕ → ℕ
  | 0, _ => 0
  | f + 1, n => if n % 10 = 0 ∧ n ≠ 0 then countZeros f (n / 10) + 1 else 0

/-- Fractional digits for a remainder `0 < F < 10 ^ 1074` representing
`F / 10 ^ 1074`: the digits of `F` stripped of trailing zeros, padded
with leading zeros back to their position after the radix point. -/
def printFrac (F : ℕ) : List Char :=
  List.replicate
      (1074 - countZeros 1074 F - (printNat (F / pow10 (countZeros 1074 F))).length)
      '0'
    ++ printNat (F / pow10 (countZeros 1074 F))

/-- Decimal rendering of the nonnegative value `NN / 10 ^ 1074`:
integer part, then the fractional digits when they are not all zero. -/
def printDec (NN : ℕ) : List Char :=
  if NN % pow10 1074 = 0 then printNat (NN / pow10 1074)
  else printNat (NN / pow10 1074) ++ '.' :: printFrac (NN % pow10 1074)

/-- Modelled from the spec: the decimal rendering of one scalar of
`toString` (declared but not defined in `Size.h`).  A representable
finite binary64 value `q` is an integer multiple of `2 ^ (-1074)`, so
`|q| * 10 ^ 1074` is a natural number and the rendering below is the
exact decimal form of `q`: sign, integer part, fractional digits with
trailing zeros removed. -/
def printQ (q : ℚ) : List Char :=
  (if q < 0 then ['-'] else []) ++
    printDec (|q| * ((pow10 1074 : ℕ) : ℚ)).num.toNat

/-- Modelled from the spec: rendering of one `double` field; the finite
case is the exact decimal numeral, and the special values use fixed
words that `fromString` never accepts. -/
def fpToChars : FP → List Char
  | FP.Finite q => printQ q
  | FP.Inf => ['i', 'n', 'f']
  | FP.NegInf => ['-', 'i', 'n', 'f']
  | FP.NaN => ['n', 'a', 'n']

/-- Modelled from the spec: `toString` produces
`"<width>x<height>"`. -/
def Size.toChars (s : Size) : List Char :=
  fpToChars s.width ++ 'x' :: fpToChars s.height

/-- Parse an unsigned numeral `digit+ ("." digit+)?` to its exact
rational value. -/
def parseUnsigned (l : List Char) : Option ℚ :=
  match splitAtChar '.' l with
  | none =>
    match parseNat l with
    | none => none
    | some i => some (i : ℚ)
  | some p =>
    match parseNat p.1, parseNat p.2 with
    | some i, some f => some ((i : ℚ) + (f : ℚ) / ((10 ^ p.2.length : ℕ) : ℚ))
    | _, _ => none

/-- Parse a numeral `"-"? digit+ ("." digit+)?` to its exact rational
value. -/
def parseNum (l : List Char) : Option ℚ :=
  match l with
  | [] => none
  | c :: t => if c = '-' then (parseUnsigned t).map (fun x => -x) else parseUnsigned (c :: t)

/-- Split the input at the separator `x` and parse the two numerals. -/
def parseSizeQ (l : List Char) : Option (ℚ × ℚ) :=
  match splitAtChar 'x' l with
  | none => none
  | some p =>
    match parseNum p.1, parseNum p.2 with
    | some v, some w => some (v, w)
    | _, _ => none

/-- Modelled from the spec: `fromString` (declared but not defined in
`Size.h`).  It fails — the spec's single `ParseError`, surfaced to the
caller as `none` — exactly when the text does not match the grammar
`"<numeral>x<numeral>"` or when a numeral does not denote a finite
binary64 value (its correctly rounded value overflows to infinity); on
success both numerals are rounded to binary64. -/
def fromChars (l : List Char) : Option Size :=
  match parseSizeQ l with
  | none => none
  | some p =>
    match fpRound p.1, fpRound p.2 with
    | FP.Finite a, FP.Finite b => some ⟨FP.Finite a, FP.Finite b⟩
    | _, _ => none

/-- Modelled from the spec: the in-place mutation of `fromString` on its
receiver — the parsed size on success, the documented deterministic
failure state `(0, 0)` on failure, never a value depending on the prior
state. -/
def Size.fromStringPost (prior : Size) (l : List Char) : Size :=
  match fromChars l with
  | some s => s
  | none => ⟨FP.Finite 0, FP.Finite 0⟩

/-- The input is well formed: it matches the grammar and both numerals
round to finite binary64 values. -/
def goodInput (l : List Char) : Bool :=
  match parseSizeQ l with
  | none => false
  | some p =>
    match fpRound p.1, fpRound p.2 with
    | FP.Finite _, FP.Finite _ => true
    | _, _ => false

theorem pow2_eq (n : ℕ) : pow2 n = 2 ^ n := by
  show 1 <<< n = 2 ^ n
  rw [Nat.shiftLeft_eq, one_mul]

theorem fpEq_refl {a : FP} (h : a ≠ FP.NaN) : fpEq a a = true := by
  cases a with
  | NaN => exact absurd rfl h
  | Inf => rfl
  | NegInf => rfl
  | Finite q => simp [fpEq]

theorem fpLe_refl {a : FP} (h : a ≠ FP.NaN) : fpLe a a = true := by
  simp [fpLe, fpEq_refl h]

theorem fpLt_asymm {a b : FP} (h : fpLt a b = true) : fpLt b a = false := by
  cases a <;> cases b <;> simp_all [fpLt]
  exact le_of_lt h

theorem fpLt_connex {a b : FP} (ha : a ≠ FP.NaN) (hb : b ≠ FP.NaN)
    (h1 : fpLt a b = false) (h2 : fpLt b a = false) : fpEq a b = true := by
  cases a <;> cases b <;> simp_all [fpLt, fpEq]
  exact le_antisymm h2 h1

theorem cppMax_self (a : FP) : cppMax a a = a := by
  unfold cppMax
  split <;> rfl

theorem cppMax_fpEq_comm {a b : FP} (ha : a ≠ FP.NaN) (hb : b ≠ FP.NaN) :
    fpEq (cppMax a b) (cppMax b a) = true := by
  cases h1 : fpLt a b <;> cases h2 : fpLt b a <;> simp [cppMax, h1, h2]
  · exact fpLt_connex ha hb h1 h2
  · exact fpEq_refl ha
  · exact fpEq_refl hb
  · rw [fpLt_asymm h1] at h2
    exact absurd h2 (by simp)

theorem cppMax_choice (a b : FP) : cppMax a b = a ∨ cppMax a b = b := by
  unfold cppMax
  split
  · exact Or.inr rfl
  · exact Or.inl rfl

theorem cppMax_le_left {a b : FP} (ha : a ≠ FP.NaN) :
    fpLe a (cppMax a b) = true := by
  cases h : fpLt a b <;> simp [cppMax, h, fpLe]
  · exact Or.inr (fpEq_refl ha)

theorem cppMax_le_right {a b : FP} (ha : a ≠ FP.NaN) (hb : b ≠ FP.NaN) :
    fpLe b (cppMax a b) = true := by
  cases h : fpLt a b <;> simp [cppMax, h, fpLe]
  · cases h2 : fpLt b a
    · exact Or.inr (fpLt_connex hb ha h2 h)
    · exact Or.inl rfl
  · exact Or.inr (fpEq_refl hb)

theorem cppMax_isMax {a b : FP} (ha : a ≠ FP.NaN) (hb : b ≠ FP.NaN) :
    isMaxOf (cppMax a b) a b :=
  ⟨cppMax_choice a b, cppMax_le_left ha, cppMax_le_right ha hb⟩

theorem fpNe_eq_not_fpEq (a b : FP) : fpNe a b = !(fpEq a b) := by
  cases a <;> cases b <;> simp [fpNe, fpEq]

/-- C6: for every pair of Sizes `a`, `b`, the inequality operator
`a != b` returns exactly the logical negation of the equality operator
`a == b`; equality of finite-valued sizes holds iff both fields are
numerically equal, and a NaN field makes even a size unequal to itself. -/
theorem C6_ne_negation :
    (∀ a b : Size, Size.bne a b = !(Size.beq a b)) ∧
    (∀ qw qh qw2 qh2 : ℚ,
      Size.beq (mkSize qw qh) (mkSize qw2 qh2) = true ↔ qw2 = qw ∧ qh2 = qh) ∧
    Size.beq ⟨FP.NaN, FP.Finite 1⟩ ⟨FP.NaN, FP.Finite 1⟩ = false := by
  refine ⟨?_, ?_, by decide⟩
  · intro a b
    simp [Size.bne, Size.beq, fpNe_eq_not_fpEq]
  · intro qw qh qw2 qh2
    simp [Size.beq, mkSize, fpEq]

/-- C9: `isPositive` returns true iff both `width > 0.0` and
`height > 0.0` strictly (the IEEE comparison, so a NaN field also
disqualifies); for finite fields this is exactly `0 < width` and
`0 < height` over the rationals, and the spec's three examples hold. -/
theorem C9_isPositive :
    (∀ s : Size, s.isPositive = true ↔
      fpLt (FP.Finite 0) s.width = true ∧ fpLt (FP.Finite 0) s.height = true) ∧
    (∀ qw qh : ℚ, (mkSize qw qh).isPositive = true ↔ 0 < qw ∧ 0 < qh) ∧
    (mkSize 1 1).isPositive = true ∧
    (mkSize 0 1).isPositive = false ∧
    (mkSize (-1) 1).isPositive = false := by
  refine ⟨?_, ?_, by decide, by decide, by decide⟩
  · intro s
    simp [Size.isPositive]
  · intro qw qh
    simp [Size.isPositive, mkSize, fpLt]

/-- C4 as stated is false on the code: a size with a NaN field is a
counterexample to idempotence (`s.unionWith(s) == s` fails because NaN
compares unequal to itself), and the pair `(NaN, 0)`, `(1, 0)` is a
counterexample to commutativity, because `std::max(NaN, 1) = NaN`
while `std::max(1, NaN) = 1`. -/
theorem C4_counterexample :
    Size.beq (Size.unionWith ⟨FP.NaN, FP.Finite 0⟩ ⟨FP.NaN, FP.Finite 0⟩)
      ⟨FP.NaN, FP.Finite 0⟩ = false ∧
    Size.beq (Size.unionWith ⟨FP.NaN, FP.Finite 0⟩ (mkSize 1 0))
      (Size.unionWith (mkSize 1 0) ⟨FP.NaN, FP.Finite 0⟩) = false := by
  constructor
  · decide
  · decide

/-- C4 amended: for all sizes whose fields are not NaN, `unionWith` is
idempotent (`s.unionWith(s) == s`) and commutative
(`a.unionWith(b) == b.unionWith(a)`) under the `==` operator. -/
theorem C4_amended :
    ∀ a b : Size, a.width ≠ FP.NaN → a.height ≠ FP.NaN →
      b.width ≠ FP.NaN → b.height ≠ FP.NaN →
      Size.beq (Size.unionWith a a) a = true ∧
      Size.beq (Size.unionWith a b) (Size.unionWith b a) = true := by
  intro a b haw hah hbw hbh
  constructor
  · simp [Size.beq, Size.unionWith, cppMax_self, fpEq_refl haw, fpEq_refl hah]
  · simp [Size.beq, Size.unionWith, cppMax_fpEq_comm hbw haw, cppMax_fpEq_comm hbh hah]

theorem C4_witness :
    Size.beq (Size.unionWith (mkSize 1 2) (mkSize 1 2)) (mkSize 1 2) = true ∧
    Size.beq (Size.unionWith (mkSize 1 2) (mkSize 3 4))
      (Size.unionWith (mkSize 3 4) (mkSize 1 2)) = true :=
  C4_amended (mkSize 1 2) (mkSize 3 4) (by decide) (by decide) (by decide) (by decide)

/-- C7: for sizes whose fields are not NaN (so that "the maximum" is
well defined), `unionWith` returns the per-axis maximum: each result
field is one of the two operand fields and dominates both in the IEEE
order; and the end-to-end example
`Size(100, 200).unionWith(Size(50, 300)) == Size(100, 300)` holds. -/
theorem C7_union_max :
    (∀ a b : Size, a.width ≠ FP.NaN → a.height ≠ FP.NaN →
      b.width ≠ FP.NaN → b.height ≠ FP.NaN →
      isMaxOf (Size.unionWith a b).width a.width b.width ∧
      isMaxOf (Size.unionWith a b).height a.height b.height) ∧
    Size.unionWith (mkSize 100 200) (mkSize 50 300) = mkSize 100 300 ∧
    Size.beq (Size.unionWith (mkSize 100 200) (mkSize 50 300)) (mkSize 100 300) = true := by
  refine ⟨?_, by decide, by decide⟩
  intro a b haw hah hbw hbh
  exact ⟨cppMax_isMax haw hbw, cppMax_isMax hah hbh⟩

theorem C7_witness :
    isMaxOf (Size.unionWith (mkSize 100 200) (mkSize 50 300)).width
      (mkSize 100 200).width (mkSize 50 300).width ∧
    isMaxOf (Size.unionWith (mkSize 100 200) (mkSize 50 300)).height
      (mkSize 100 200).height (mkSize 50 300).height :=
  C7_union_max.1 (mkSize 100 200) (mkSize 50 300) (by decide) (by decide) (by decide) (by decide)

theorem sizeBeq_self {s : Size} (hw : s.width ≠ FP.NaN) (hh : s.height ≠ FP.NaN) :
    Size.beq s s = true := by
  simp [Size.beq, fpEq_refl hw, fpEq_refl hh]

theorem fpAdd_comm (a b : FP) : fpAdd a b = fpAdd b a := by
  cases a <;> cases b <;> simp [fpAdd] <;> rw [add_comm]

theorem fpAdd_zero {x : FP} (hn : x ≠ FP.NaN) (hv : validFP x) :
    fpAdd x (FP.Finite 0) = x := by
  cases x with
  | NaN => exact absurd rfl hn
  | Inf => rfl
  | NegInf => rfl
  | Finite q =>
      show fpRound (q + 0) = FP.Finite q
      rw [add_zero]
      exact hv

theorem fpSub_zero {x : FP} (hn : x ≠ FP.NaN) (hv : validFP x) :
    fpSub x (FP.Finite 0) = x := by
  cases x with
  | NaN => exact absurd rfl hn
  | Inf => rfl
  | NegInf => rfl
  | Finite q =>
      show fpRound (q - 0) = FP.Finite q
      rw [sub_zero]
      exact hv

unseal Rat.add Rat.mul Rat.inv Rat.sub in
/-- C5 as stated is false on the code: when a component sum is NaN the
two sums compare unequal even though they are the same value.  With
`s1 = (∞, 0)` and `s2 = (-∞, 0)` both sums have width `∞ + (-∞) = NaN`,
and NaN compares unequal to itself under `==`. -/
theorem C5_counterexample :
    Size.beq (Size.add ⟨FP.Inf, FP.Finite 0⟩ ⟨FP.NegInf, FP.Finite 0⟩)
      (Size.add ⟨FP.NegInf, FP.Finite 0⟩ ⟨FP.Inf, FP.Finite 0⟩) = false := by
  decide

/-- C5 amended: `s1 + s2` and `s2 + s1` are always the same value, so
`s1 + s2 == s2 + s1` holds whenever the component sums are not NaN
(in particular for all finite, non-overflowing operands). -/
theorem C5_amended :
    ∀ s1 s2 : Size, (Size.add s1 s2).width ≠ FP.NaN →
      (Size.add s1 s2).height ≠ FP.NaN →
      Size.beq (Size.add s1 s2) (Size.add s2 s1) = true := by
  intro s1 s2 hw hh
  have e : Size.add s2 s1 = Size.add s1 s2 := by
    show (⟨fpAdd s2.width s1.width, fpAdd s2.height s1.height⟩ : Size) = _
    rw [fpAdd_comm s2.width s1.width, fpAdd_comm s2.height s1.height]
    rfl
  rw [e]
  exact sizeBeq_self hw hh

unseal Rat.add Rat.mul Rat.inv Rat.sub in
theorem C5_witness :
    Size.beq (Size.add (mkSize 1 2) (mkSize 3 4))
      (Size.add (mkSize 3 4) (mkSize 1 2)) = true :=
  C5_amended (mkSize 1 2) (mkSize 3 4) (by decide) (by decide)

unseal Rat.add Rat.mul Rat.inv Rat.sub in
/-- C8 as stated is false on the code: a size with a NaN field is not
recovered by adding or subtracting `Size(0, 0)`, because NaN compares
unequal to itself under `==`. -/
theorem C8_counterexample :
    Size.beq (Size.add ⟨FP.NaN, FP.Finite 0⟩ (mkSize 0 0)) ⟨FP.NaN, FP.Finite 0⟩ = false ∧
    Size.beq (Size.sub ⟨FP.NaN, FP.Finite 0⟩ (mkSize 0 0)) ⟨FP.NaN, FP.Finite 0⟩ = false := by
  constructor
  · decide
  · decide

/-- C8 amended: for every size whose fields are genuine binary64 values
other than NaN, `s + Size(0,0) == s` and `s - Size(0,0) == s`. -/
theorem C8_amended :
    ∀ s : Size, s.width ≠ FP.NaN → s.height ≠ FP.NaN →
      validFP s.width → validFP s.height →
      Size.beq (Size.add s (mkSize 0 0)) s = true ∧
      Size.beq (Size.sub s (mkSize 0 0)) s = true := by
  intro s hw hh vw vh
  constructor
  · show Size.beq ⟨fpAdd s.width (FP.Finite 0), fpAdd s.height (FP.Finite 0)⟩ s = true
    rw [fpAdd_zero hw vw, fpAdd_zero hh vh]
    exact sizeBeq_self hw hh
  · show Size.beq ⟨fpSub s.width (FP.Finite 0), fpSub s.height (FP.Finite 0)⟩ s = true
    rw [fpSub_zero hw vw, fpSub_zero hh vh]
    exact sizeBeq_self hw hh

unseal Rat.add Rat.mul Rat.inv Rat.sub in
theorem C8_witness :
    Size.beq (Size.add (mkSize 1 2) (mkSize 0 0)) (mkSize 1 2) = true ∧
    Size.beq (Size.sub (mkSize 1 2) (mkSize 0 0)) (mkSize 1 2) = true :=
  C8_amended (mkSize 1 2) (by decide) (by decide) (by decide) (by decide)

unseal Rat.add Rat.mul Rat.inv Rat.sub in
/-- C1 as stated is false on the code in its "exactly when either
dimension is exactly zero" part: `2 ^ (-600)` is a genuine positive
binary64 value, yet `Size(2^-600, 2^-600)` satisfies `isZero` because
the product underflows to exactly `0.0`. -/
theorem C1_counterexample :
    isRep (1 / 2 ^ 600) ∧
    (mkSize (1 / 2 ^ 600) (1 / 2 ^ 600)).isZero = true ∧
    fpEq (mkSize (1 / 2 ^ 600) (1 / 2 ^ 600)).width (FP.Finite 0) = false ∧
    fpEq (mkSize (1 / 2 ^ 600) (1 / 2 ^ 600)).height (FP.Finite 0) = false := by
  refine ⟨by decide, by decide, by decide, by decide⟩

unseal Rat.add Rat.mul Rat.inv Rat.sub in
/-- C1 amended: `isZero` returns true iff the floating-point product
`width * height` compares equal to `0.0`.  If either dimension is
exactly zero and the other is finite the product is zero, so `isZero`
holds — but not exactly then: the product of a zero with a NaN or
infinite dimension is NaN, and the product of two tiny nonzero
dimensions can underflow to zero.  The four spec examples hold. -/
theorem C1_amended :
    (∀ s : Size, s.isZero = fpEq (fpMul s.width s.height) (FP.Finite 0)) ∧
    (∀ q : ℚ, (mkSize 0 q).isZero = true) ∧
    (∀ q : ℚ, (mkSize q 0).isZero = true) ∧
    (Size.mk FP.NaN (FP.Finite 0)).isZero = false ∧
    (Size.mk FP.Inf (FP.Finite 0)).isZero = false ∧
    (mkSize 5 0).isZero = true ∧
    (mkSize 0 5).isZero = true ∧
    (mkSize 0 0).isZero = true ∧
    (mkSize 1 1).isZero = false := by
  refine ⟨fun s => rfl, ?_, ?_, by decide, by decide, by decide, by decide, by decide, by decide⟩
  · intro q
    show fpEq (fpRound (0 * q)) (FP.Finite 0) = true
    rw [zero_mul]
    decide
  · intro q
    show fpEq (fpRound (q * 0)) (FP.Finite 0) = true
    rw [mul_zero]
    decide

unseal Rat.add Rat.mul Rat.inv Rat.sub in
/-- C10: `isPositive` does not imply the negation of `isZero`: for the
size whose dimensions are both the double `1e-200`, `isPositive` holds
(both fields are strictly positive) and `isZero` holds as well, because
the product of the fields underflows to exactly `0.0`. -/
theorem C10_underflow :
    (Size.mk oneEMinus200 oneEMinus200).isPositive = true ∧
    (Size.mk oneEMinus200 oneEMinus200).isZero = true := by
  constructor
  · decide
  · decide

theorem powFuel_step (f b n : ℕ) (h : n ≠ 0) :
    powFuel (f + 1) b n =
      if n % 2 = 0 then powFuel f b (n / 2) * powFuel f b (n / 2)
      else powFuel f b (n / 2) * powFuel f b (n / 2) * b := by
  show (if n = 0 then 1 else _) = _
  rw [if_neg h]

theorem powFuel_eq (f : ℕ) : ∀ b n : ℕ, n < 2 ^ f → powFuel f b n = b ^ n := by
  induction f with
  | zero =>
      intro b n h
      have hn : n = 0 := by omega
      subst hn
      rfl
  | succ f ih =>
      intro b n h
      by_cases h0 : n = 0
      · subst h0
        rfl
      · have h2 : (2 : ℕ) ^ (f + 1) = 2 * 2 ^ f := by ring
        have hlt : n / 2 < 2 ^ f := by omega
        have ihe := ih b (n / 2) hlt
        rw [powFuel_step f b n h0, ihe]
        by_cases he : n % 2 = 0
        · rw [if_pos he, ← pow_add]
          congr 1
          omega
        · rw [if_neg he, ← pow_add, ← pow_succ]
          congr 1
          omega

theorem pow10_eq (n : ℕ) (h : n ≤ 1074) : pow10 n = 10 ^ n :=
  powFuel_eq 40 10 n (by norm_num; omega)

theorem digVal_digitChar {d : ℕ} (h : d < 10) : digVal (digitChar d) = some d := by
  interval_cases d <;> decide

theorem digitChar_ne {d : ℕ} (h : d < 10) :
    digitChar d ≠ 'x' ∧ digitChar d ≠ '.' ∧ digitChar d ≠ '-' := by
  interval_cases d <;> decide

theorem parseNatAcc_append (l1 l2 : List Char) (acc : ℕ) :
    parseNatAcc (l1 ++ l2) acc =
      match parseNatAcc l1 acc with
      | none => none
      | some a => parseNatAcc l2 a := by
  induction l1 generalizing acc with
  | nil => rfl
  | cons c t ih =>
      cases h : digVal c with
      | none => simp [List.cons_append, parseNatAcc, h]
      | some d =>
          simp only [List.cons_append, parseNatAcc, h]
          exact ih (acc * 10 + d)

theorem natDigsF_step (f n : ℕ) (h : n ≠ 0) :
    natDigsF (f + 1) n = digitChar (n % 10) :: natDigsF f (n / 10) := by
  show (if n = 0 then [] else _) = _
  rw [if_neg h]

theorem natDigsF_parse (f : ℕ) :
    ∀ n acc : ℕ, n ≤ f →
      parseNatAcc ((natDigsF f n).reverse) acc =
        some (acc * 10 ^ (natDigsF f n).length + n) := by
  induction f with
  | zero =>
      intro n acc h
      have hn : n = 0 := by omega
      subst hn
      simp [natDigsF, parseNatAcc]
  | succ f ih =>
      intro n acc h
      by_cases h0 : n = 0
      · subst h0
        simp [natDigsF, parseNatAcc]
      · have hle : n / 10 ≤ f := by omega
        rw [natDigsF_step f n h0, List.reverse_cons, parseNatAcc_append, ih (n / 10) acc hle]
        show parseNatAcc [digitChar (n % 10)] _ = _
        unfold parseNatAcc
        rw [digVal_digitChar (Nat.mod_lt n (by norm_num))]
        show some ((acc * 10 ^ (natDigsF f (n / 10)).length + n / 10) * 10 + n % 10) = _
        rw [List.length_cons, pow_succ]
        congr 1
        have hdm : n / 10 * 10 + n % 10 = n := Nat.div_add_mod' n 10
        have hr : (acc * 10 ^ (natDigsF f (n / 10)).length + n / 10) * 10 + n % 10 =
            acc * (10 ^ (natDigsF f (n / 10)).length * 10) + (n / 10 * 10 + n % 10) := by
          ring
        rw [hr, hdm]

theorem natDigsF_mem (f : ℕ) :
    ∀ n : ℕ, ∀ c ∈ natDigsF f n, ∃ d, d < 10 ∧ c = digitChar d := by
  induction f with
  | zero => intro n c hc; simp [natDigsF] at hc
  | succ f ih =>
      intro n c hc
      by_cases h0 : n = 0
      · subst h0
        simp [natDigsF] at hc
      · rw [natDigsF_step f n h0] at hc
        rcases List.mem_cons.mp hc with h | h
        · exact ⟨n % 10, Nat.mod_lt n (by norm_num), h⟩
        · exact ih (n / 10) c h

theorem natDigsF_length (f : ℕ) :
    ∀ n m : ℕ, n < 10 ^ m → (natDigsF f n).length ≤ m := by
  induction f with
  | zero => intro n m _; simp [natDigsF]
  | succ f ih =>
      intro n m h
      by_cases h0 : n = 0
      · subst h0
        simp [natDigsF]
      · rw [natDigsF_step f n h0, List.length_cons]
        have hm : m ≠ 0 := by
          intro hm0
          subst hm0
          simp at h
          omega
        obtain ⟨m', rfl⟩ : ∃ k, m = k + 1 := ⟨m - 1, by omega⟩
        have hdiv : n / 10 < 10 ^ m' := by
          rw [Nat.div_lt_iff_lt_mul (by norm_num)]
          calc n < 10 ^ (m' + 1) := h
          _ = 10 ^ m' * 10 := by rw [pow_succ]
        have := ih (n / 10) m' hdiv
        omega

theorem printNat_ne_nil (n : ℕ) : printNat n ≠ [] := by
  unfold printNat
  by_cases h0 : n = 0
  · rw [if_pos h0]
    exact List.cons_ne_nil _ _
  · rw [if_neg h0]
    intro he
    have : natDigsF n n = [] := by
      have := congrArg List.reverse he
      simpa using this
    obtain ⟨f, rfl⟩ : ∃ f, n = f + 1 := ⟨n - 1, by omega⟩
    rw [natDigsF_step f (f + 1) h0] at this
    exact List.cons_ne_nil _ _ this

theorem parseNatAcc_printNat (n : ℕ) : parseNatAcc (printNat n) 0 = some n := by
  unfold printNat
  by_cases h0 : n = 0
  · subst h0
    decide
  · rw [if_neg h0, natDigsF_parse n n 0 le_rfl]
    simp

theorem parseNat_ne_nil (l : List Char) (h : l ≠ []) : parseNat l = parseNatAcc l 0 := by
  cases l with
  | nil => exact absurd rfl h
  | cons c t => rfl

theorem parseNat_printNat (n : ℕ) : parseNat (printNat n) = some n := by
  rw [parseNat_ne_nil _ (printNat_ne_nil n)]
  exact parseNatAcc_printNat n

theorem printNat_mem (n : ℕ) : ∀ c ∈ printNat n, ∃ d, d < 10 ∧ c = digitChar d := by
  unfold printNat
  by_cases h0 : n = 0
  · rw [if_pos h0]
    intro c hc
    rcases List.mem_singleton.mp hc with rfl
    exact ⟨0, by norm_num, rfl⟩
  · rw [if_neg h0]
    intro c hc
    exact natDigsF_mem n n c (List.mem_reverse.mp hc)

theorem printNat_length_le {n m : ℕ} (h0 : n ≠ 0) (h : n < 10 ^ m) :
    (printNat n).length ≤ m := by
  unfold printNat
  rw [if_neg h0, List.length_reverse]
  exact natDigsF_length n n m h

theorem parseNatAcc_zero_cons (rest : List Char) :
    parseNatAcc ('0' :: rest) 0 = parseNatAcc rest 0 := rfl

theorem parseNatAcc_replicate_zero (j : ℕ) (l : List Char) :
    parseNatAcc (List.replicate j '0' ++ l) 0 = parseNatAcc l 0 := by
  induction j with
  | zero => rfl
  | succ j ih =>
      show parseNatAcc ('0' :: (List.replicate j '0' ++ l)) 0 = _
      rw [parseNatAcc_zero_cons]
      exact ih

theorem splitAtChar_cons (sep c : Char) (t : List Char) :
    splitAtChar sep (c :: t) =
      if c = sep then some ([], t)
      else
        match splitAtChar sep t with
        | none => none
        | some p => some (c :: p.1, p.2) := rfl

theorem splitAtChar_append (sep : Char) (a b : List Char)
    (h : ∀ c ∈ a, c ≠ sep) : splitAtChar sep (a ++ sep :: b) = some (a, b) := by
  induction a with
  | nil =>
      rw [List.nil_append, splitAtChar_cons, if_pos rfl]
  | cons c t ih =>
      have hc : c ≠ sep := h c (List.mem_cons_self c t)
      rw [List.cons_append, splitAtChar_cons, if_neg hc,
        ih fun x hx => h x (List.mem_cons_of_mem c hx)]

theorem splitAtChar_none (sep : Char) (l : List Char)
    (h : ∀ c ∈ l, c ≠ sep) : splitAtChar sep l = none := by
  induction l with
  | nil => rfl
  | cons c t ih =>
      have hc : c ≠ sep := h c (List.mem_cons_self c t)
      rw [splitAtChar_cons, if_neg hc, ih fun x hx => h x (List.mem_cons_of_mem c hx)]

theorem countZeros_step (f n : ℕ) (h : n % 10 = 0 ∧ n ≠ 0) :
    countZeros (f + 1) n = countZeros f (n / 10) + 1 := by
  show (if n % 10 = 0 ∧ n ≠ 0 then _ else _) = _
  rw [if_pos h]

theorem countZeros_stop (f n : ℕ) (h : ¬(n % 10 = 0 ∧ n ≠ 0)) :
    countZeros (f + 1) n = 0 := by
  show (if n % 10 = 0 ∧ n ≠ 0 then _ else _) = _
  rw [if_neg h]

theorem countZeros_spec (f : ℕ) :
    ∀ n : ℕ, n ≠ 0 → n < 10 ^ f →
      10 ^ countZeros f n ∣ n ∧ n / 10 ^ countZeros f n ≠ 0 ∧
        (n / 10 ^ countZeros f n) % 10 ≠ 0 := by
  induction f with
  | zero =>
      intro n h0 h
      simp at h
      omega
  | succ f ih =>
      intro n h0 h
      by_cases hz : n % 10 = 0 ∧ n ≠ 0
      · rw [countZeros_step f n hz]
        have h10 : n / 10 ≠ 0 := by omega
        have hlt : n / 10 < 10 ^ f := by
          rw [Nat.div_lt_iff_lt_mul (by norm_num)]
          calc n < 10 ^ (f + 1) := h
          _ = 10 ^ f * 10 := by rw [pow_succ]
        obtain ⟨hdvd, hne, hmod⟩ := ih (n / 10) h10 hlt
        have hrw : n / 10 ^ (countZeros f (n / 10) + 1) = n / 10 / 10 ^ countZeros f (n / 10) := by
          rw [Nat.div_div_eq_div_mul, pow_succ, mul_comm]
        refine ⟨?_, ?_, ?_⟩
        · obtain ⟨t, ht⟩ := hdvd
          refine ⟨t, ?_⟩
          rw [pow_succ]
          calc n = 10 * (n / 10) := by omega
          _ = 10 * (10 ^ countZeros f (n / 10) * t) := by rw [← ht]
          _ = 10 ^ countZeros f (n / 10) * 10 * t := by ring
        · rw [hrw]
          exact hne
        · rw [hrw]
          exact hmod
      · rw [countZeros_stop f n hz]
        have hmod : n % 10 ≠ 0 := by
          rcases not_and_or.mp hz with h1 | h2
          · exact h1
          · exact absurd (not_not.mp h2) h0
        simpa using ⟨h0, hmod⟩

theorem mulTwoZ_eq (q : ℚ) (k : ℤ) : mulTwoZ q k = q * (2 : ℚ) ^ k := by
  unfold mulTwoZ
  by_cases h : 0 ≤ k
  · rw [if_pos h]
    congr 1
    rw [pow2_eq]
    push_cast
    rw [← zpow_natCast (2 : ℚ) k.toNat, Int.toNat_of_nonneg h]
  · rw [if_neg h]
    rw [pow2_eq]
    push_cast
    rw [← zpow_natCast (2 : ℚ) (-k).toNat, Int.toNat_of_nonneg (by omega : (0 : ℤ) ≤ -k)]
    rw [div_eq_mul_inv, ← zpow_neg, neg_neg]

theorem dyadic_form (m u : ℤ) (hu : -1074 ≤ u) :
    ∃ M : ℤ, (m : ℚ) * (2 : ℚ) ^ u = (M : ℚ) / 2 ^ 1074 := by
  refine ⟨m * 2 ^ (u + 1074).toNat, ?_⟩
  rw [eq_div_iff (by positivity : ((2 : ℚ) ^ (1074 : ℕ)) ≠ 0)]
  push_cast
  rw [mul_assoc, ← zpow_natCast (2 : ℚ) 1074, ← zpow_add₀ (by norm_num : (2 : ℚ) ≠ 0),
    ← zpow_natCast (2 : ℚ) (u + 1074).toNat, Int.toNat_of_nonneg (by omega : (0 : ℤ) ≤ u + 1074)]
  norm_cast

theorem fpRoundM_finite {q r : ℚ} {u : ℤ} (h : fpRoundM q u = FP.Finite r) :
    r = ((rnEven (mulTwoZ q (-u)) : ℤ) : ℚ) * (2 : ℚ) ^ u := by
  unfold fpRoundM at h
  split_ifs at h with h1 h2
  · injection h with h2
    rw [← h2, mulTwoZ_eq]

theorem fpRound_dyadic {q r : ℚ} (h : fpRound q = FP.Finite r) :
    ∃ M : ℤ, r = (M : ℚ) / 2 ^ 1074 := by
  unfold fpRound at h
  split_ifs at h with h1 h2 h3 h4
  · injection h with h5
    exact ⟨0, by rw [← h5]; norm_num⟩
  · injection h with h5
    exact ⟨0, by rw [← h5]; norm_num⟩
  · obtain ⟨M, hM⟩ := dyadic_form (rnEven (mulTwoZ q (-(max (qexp q - 52) (-1074)))))
      (max (qexp q - 52) (-1074)) (le_max_right _ _)
    exact ⟨M, by rw [fpRoundM_finite h]; exact hM⟩

theorem printNat_no_dot (n : ℕ) : ∀ c ∈ printNat n, c ≠ '.' := by
  intro c hc
  obtain ⟨d, hd, rfl⟩ := printNat_mem n c hc
  exact (digitChar_ne hd).2.1

theorem printDec_mem (NN : ℕ) : ∀ c ∈ printDec NN, c ≠ 'x' ∧ c ≠ '-' := by
  unfold printDec
  by_cases h : NN % pow10 1074 = 0
  · rw [if_pos h]
    intro c hc
    obtain ⟨d, hd, rfl⟩ := printNat_mem _ c hc
    exact ⟨(digitChar_ne hd).1, (digitChar_ne hd).2.2⟩
  · rw [if_neg h]
    intro c hc
    rcases List.mem_append.mp hc with h1 | h1
    · obtain ⟨d, hd, rfl⟩ := printNat_mem _ c h1
      exact ⟨(digitChar_ne hd).1, (digitChar_ne hd).2.2⟩
    · rcases List.mem_cons.mp h1 with rfl | h2
      · exact ⟨by decide, by decide⟩
      · unfold printFrac at h2
        rcases List.mem_append.mp h2 with h3 | h3
        · rw [List.eq_of_mem_replicate h3]
          exact ⟨by decide, by decide⟩
        · obtain ⟨d, hd, rfl⟩ := printNat_mem _ c h3
          exact ⟨(digitChar_ne hd).1, (digitChar_ne hd).2.2⟩

theorem printDec_ne_nil (NN : ℕ) : printDec NN ≠ [] := by
  unfold printDec
  by_cases h : NN % pow10 1074 = 0
  · rw [if_pos h]
    exact printNat_ne_nil _
  · rw [if_neg h]
    intro he
    exact printNat_ne_nil _ (List.append_eq_nil.mp he).1

theorem parseUnsigned_nodot (a : List Char) (ia : ℕ)
    (hna : ∀ c ∈ a, c ≠ '.') (hpa : parseNat a = some ia) :
    parseUnsigned a = some (ia : ℚ) := by
  unfold parseUnsigned
  rw [splitAtChar_none _ _ hna]
  show (match parseNat a with
    | none => none
    | some i => some (i : ℚ)) = _
  rw [hpa]

theorem parseUnsigned_dot (a b : List Char) (ia fb : ℕ)
    (hna : ∀ c ∈ a, c ≠ '.') (hpa : parseNat a = some ia) (hpb : parseNat b = some fb) :
    parseUnsigned (a ++ '.' :: b) = some ((ia : ℚ) + (fb : ℚ) / ((10 ^ b.length : ℕ) : ℚ)) := by
  unfold parseUnsigned
  rw [splitAtChar_append _ _ _ hna]
  show (match parseNat a, parseNat b with
    | some i, some f => some ((i : ℚ) + (f : ℚ) / ((10 ^ b.length : ℕ) : ℚ))
    | _, _ => none) = _
  rw [hpa, hpb]

theorem decValue (I F2 k e : ℕ) (hk : k ≤ e) :
    (I : ℚ) + (F2 : ℚ) / (10 : ℚ) ^ (e - k) =
      ((I * 10 ^ e + F2 * 10 ^ k : ℕ) : ℚ) / (10 : ℚ) ^ e := by
  have h0 : ((10 : ℚ) ^ (e - k)) ≠ 0 := by positivity
  have h1 : ((10 : ℚ) ^ e) ≠ 0 := by positivity
  have hsplit : (10 : ℚ) ^ e = (10 : ℚ) ^ (e - k) * (10 : ℚ) ^ k := by
    rw [← pow_add]
    congr 1
    omega
  rw [eq_div_iff h1]
  push_cast
  rw [hsplit]
  field_simp
  ring

theorem parseUnsigned_printDec (NN : ℕ) :
    parseUnsigned (printDec NN) = some ((NN : ℚ) / (10 : ℚ) ^ (1074 : ℕ)) := by
  have hP : pow10 1074 = 10 ^ 1074 := pow10_eq 1074 le_rfl
  have hP0 : ((10 : ℚ) ^ (1074 : ℕ)) ≠ 0 := by positivity
  unfold printDec
  by_cases h : NN % pow10 1074 = 0
  · rw [if_pos h]
    rw [parseUnsigned_nodot _ _ (printNat_no_dot _) (parseNat_printNat _)]
    congr 1
    rw [eq_div_iff hP0]
    calc ((NN / pow10 1074 : ℕ) : ℚ) * 10 ^ 1074
        = (((NN / pow10 1074) * pow10 1074 : ℕ) : ℚ) := by
          push_cast [hP]
          ring
      _ = (NN : ℚ) := by
          rw [Nat.div_mul_cancel (Nat.dvd_of_mod_eq_zero h)]
  · rw [if_neg h]
    have hFne : NN % pow10 1074 ≠ 0 := h
    have hFlt : NN % pow10 1074 < 10 ^ 1074 := by
      rw [← hP]
      exact Nat.mod_lt _ (by rw [hP]; positivity)
    obtain ⟨hdvd, hne2, hmod⟩ := countZeros_spec 1074 (NN % pow10 1074) hFne hFlt
    have hkle : countZeros 1074 (NN % pow10 1074) ≤ 1074 := by
      by_contra hgt
      have h1 : 10 ^ countZeros 1074 (NN % pow10 1074) ≤ NN % pow10 1074 :=
        Nat.le_of_dvd (by omega) hdvd
      have h2 : (10 : ℕ) ^ 1074 ≤ 10 ^ countZeros 1074 (NN % pow10 1074) :=
        Nat.pow_le_pow_right (by norm_num) (by omega)
      omega
    have hpk : pow10 (countZeros 1074 (NN % pow10 1074)) =
        10 ^ countZeros 1074 (NN % pow10 1074) := pow10_eq _ hkle
    have hF2ne : NN % pow10 1074 / pow10 (countZeros 1074 (NN % pow10 1074)) ≠ 0 := by
      rw [hpk]
      exact hne2
    have hF2lt : NN % pow10 1074 / pow10 (countZeros 1074 (NN % pow10 1074)) <
        10 ^ (1074 - countZeros 1074 (NN % pow10 1074)) := by
      rw [hpk, Nat.div_lt_iff_lt_mul (by positivity), ← pow_add]
      have he : 1074 - countZeros 1074 (NN % pow10 1074) + countZeros 1074 (NN % pow10 1074) =
          1074 := by omega
      rw [he]
      exact hFlt
    have hlen : (printNat (NN % pow10 1074 / pow10 (countZeros 1074 (NN % pow10 1074)))).length ≤
        1074 - countZeros 1074 (NN % pow10 1074) :=
      printNat_length_le hF2ne hF2lt
    unfold printFrac
    rw [parseUnsigned_dot _ _ _ _ (printNat_no_dot _) (parseNat_printNat _) (by
      rw [parseNat_ne_nil _ (by
        intro he
        exact printNat_ne_nil _ (List.append_eq_nil.mp he).2)]
      rw [parseNatAcc_replicate_zero]
      exact parseNatAcc_printNat _)]
    congr 1
    rw [List.length_append, List.length_replicate]
    have hLL : 1074 - countZeros 1074 (NN % pow10 1074) -
          (printNat (NN % pow10 1074 / pow10 (countZeros 1074 (NN % pow10 1074)))).length +
          (printNat (NN % pow10 1074 / pow10 (countZeros 1074 (NN % pow10 1074)))).length =
        1074 - countZeros 1074 (NN % pow10 1074) := by omega
    rw [hLL]
    have hcastpow : ((10 ^ (1074 - countZeros 1074 (NN % pow10 1074)) : ℕ) : ℚ) =
        (10 : ℚ) ^ (1074 - countZeros 1074 (NN % pow10 1074)) := by
      rw [Nat.cast_pow]
      norm_num
    rw [hcastpow]
    rw [decValue (NN / pow10 1074) (NN % pow10 1074 / pow10 (countZeros 1074 (NN % pow10 1074)))
      (countZeros 1074 (NN % pow10 1074)) 1074 hkle]
    congr 1
    have h2 : NN % pow10 1074 / pow10 (countZeros 1074 (NN % pow10 1074)) *
        pow10 (countZeros 1074 (NN % pow10 1074)) = NN % pow10 1074 :=
      Nat.div_mul_cancel (by rw [hpk]; exact hdvd)
    have h1 : pow10 1074 * (NN / pow10 1074) + NN % pow10 1074 = NN :=
      Nat.div_add_mod NN (pow10 1074)
    have hNat : NN / pow10 1074 * 10 ^ 1074 +
        NN % pow10 1074 / pow10 (countZeros 1074 (NN % pow10 1074)) *
          10 ^ countZeros 1074 (NN % pow10 1074) = NN := by
      rw [← hP, ← hpk]
      calc NN / pow10 1074 * pow10 1074 +
          NN % pow10 1074 / pow10 (countZeros 1074 (NN % pow10 1074)) *
            pow10 (countZeros 1074 (NN % pow10 1074))
          = NN / pow10 1074 * pow10 1074 + NN % pow10 1074 := by rw [h2]
        _ = NN := by
            rw [mul_comm (NN / pow10 1074) (pow10 1074)]
            exact h1
    exact Nat.cast_inj.mpr hNat

theorem printQ_mem (q : ℚ) : ∀ c ∈ printQ q, c ≠ 'x' := by
  unfold printQ
  intro c hc
  rcases List.mem_append.mp hc with h1 | h1
  · by_cases h : q < 0
    · rw [if_pos h] at h1
      rcases List.mem_singleton.mp h1 with rfl
      decide
    · rw [if_neg h] at h1
      simp at h1
  · exact (printDec_mem _ c h1).1

theorem pow10_cast : ((pow10 1074 : ℕ) : ℚ) = (10 : ℚ) ^ (1074 : ℕ) := by
  rw [pow10_eq 1074 le_rfl, Nat.cast_pow]
  norm_num

theorem rep_abs_cast {q : ℚ} (M : ℤ) (hM : q = (M : ℚ) / 2 ^ 1074) :
    |q| * ((pow10 1074 : ℕ) : ℚ) = ((M.natAbs * 5 ^ 1074 : ℕ) : ℚ) := by
  rw [pow10_cast, hM]
  rw [abs_div, abs_of_pos (by positivity : (0 : ℚ) < 2 ^ 1074)]
  rw [div_mul_eq_mul_div, div_eq_iff (by positivity : ((2 : ℚ) ^ (1074 : ℕ)) ≠ 0)]
  have h10 : (10 : ℚ) ^ (1074 : ℕ) = 2 ^ 1074 * 5 ^ 1074 := by
    rw [← mul_pow]
    norm_num
  rw [h10]
  have h5 : ((5 ^ 1074 : ℕ) : ℚ) = (5 : ℚ) ^ (1074 : ℕ) := by
    rw [Nat.cast_pow, Nat.cast_ofNat]
  have hcast : ((M.natAbs * 5 ^ 1074 : ℕ) : ℚ) = |(M : ℚ)| * 5 ^ 1074 := by
    rw [Nat.cast_mul, Int.cast_natAbs, Int.cast_abs, h5]
  rw [hcast, mul_comm ((2 : ℚ) ^ (1074 : ℕ)) ((5 : ℚ) ^ (1074 : ℕ)), ← mul_assoc]

theorem parseNum_printQ {q : ℚ} (h : isRep q) : parseNum (printQ q) = some q := by
  obtain ⟨M, hM⟩ := fpRound_dyadic h
  have hK := rep_abs_cast M hM
  have hnum : (|q| * ((pow10 1074 : ℕ) : ℚ)).num.toNat = M.natAbs * 5 ^ 1074 := by
    rw [hK, Rat.num_natCast, Int.toNat_natCast]
  have hval : ((M.natAbs * 5 ^ 1074 : ℕ) : ℚ) / (10 : ℚ) ^ (1074 : ℕ) = |q| := by
    rw [← hK, pow10_cast]
    field_simp
  by_cases hneg : q < 0
  · have hpq : printQ q = '-' :: printDec (|q| * ((pow10 1074 : ℕ) : ℚ)).num.toNat := by
      unfold printQ
      rw [if_pos hneg]
      rfl
    rw [hpq]
    show (if ('-' : Char) = '-' then
        (parseUnsigned (printDec (|q| * ((pow10 1074 : ℕ) : ℚ)).num.toNat)).map (fun x => -x)
      else parseUnsigned ('-' :: printDec (|q| * ((pow10 1074 : ℕ) : ℚ)).num.toNat)) = some q
    rw [if_pos rfl, hnum, parseUnsigned_printDec, hval]
    show some (-|q|) = some q
    rw [abs_of_neg hneg, neg_neg]
  · have hpq : printQ q = printDec (|q| * ((pow10 1074 : ℕ) : ℚ)).num.toNat := by
      unfold printQ
      rw [if_neg hneg]
      rfl
    obtain ⟨c, t, hct⟩ := List.exists_cons_of_ne_nil
      (printDec_ne_nil (|q| * ((pow10 1074 : ℕ) : ℚ)).num.toNat)
    have hcmem : c ∈ printDec (|q| * ((pow10 1074 : ℕ) : ℚ)).num.toNat := by
      rw [hct]
      exact List.mem_cons_self c t
    have hcne : c ≠ '-' := (printDec_mem _ c hcmem).2
    rw [hpq, hct]
    show (if c = '-' then (parseUnsigned t).map (fun x => -x)
      else parseUnsigned (c :: t)) = some q
    rw [if_neg hcne, ← hct, hnum, parseUnsigned_printDec, hval]
    show some |q| = some q
    rw [abs_of_nonneg (le_of_not_lt hneg)]

theorem parseSizeQ_toChars {qw qh : ℚ} (hw : isRep qw) (hh : isRep qh) :
    parseSizeQ (Size.toChars ⟨FP.Finite qw, FP.Finite qh⟩) = some (qw, qh) := by
  show parseSizeQ (printQ qw ++ 'x' :: printQ qh) = some (qw, qh)
  unfold parseSizeQ
  rw [splitAtChar_append _ _ _ (printQ_mem qw)]
  show (match parseNum (printQ qw), parseNum (printQ qh) with
    | some v, some w => some (v, w)
    | _, _ => none) = some (qw, qh)
  rw [parseNum_printQ hw, parseNum_printQ hh]

theorem fromChars_toChars {qw qh : ℚ} (hw : isRep qw) (hh : isRep qh) :
    fromChars (Size.toChars ⟨FP.Finite qw, FP.Finite qh⟩) =
      some ⟨FP.Finite qw, FP.Finite qh⟩ := by
  unfold fromChars
  rw [parseSizeQ_toChars hw hh]
  show (match fpRound qw, fpRound qh with
    | FP.Finite a, FP.Finite b => some (⟨FP.Finite a, FP.Finite b⟩ : Size)
    | _, _ => none) = _
  rw [show fpRound qw = FP.Finite qw from hw, show fpRound qh = FP.Finite qh from hh]

unseal Rat.add Rat.mul Rat.inv Rat.sub in
/-- C2: for every Size with representable finite width and height,
parsing the characters produced by `toString` yields exactly the same
Size back — both as the parsed value itself and under the `==`
comparison of the mutated receiver — and the concrete example holds:
`Size(10, 10)` prints as `"10x10"` and `"10x10"` parses back to
`Size(10, 10)`. -/
theorem C2_roundtrip :
    (∀ qw qh : ℚ, isRep qw → isRep qh →
      fromChars (Size.toChars ⟨FP.Finite qw, FP.Finite qh⟩) =
        some ⟨FP.Finite qw, FP.Finite qh⟩ ∧
      ∀ prior : Size,
        Size.beq
          (Size.fromStringPost prior (Size.toChars ⟨FP.Finite qw, FP.Finite qh⟩))
          ⟨FP.Finite qw, FP.Finite qh⟩ = true) ∧
    Size.toChars (mkSize 10 10) = ['1', '0', 'x', '1', '0'] ∧
    fromChars ['1', '0', 'x', '1', '0'] = some (mkSize 10 10) := by
  refine ⟨?_, by decide, by decide⟩
  intro qw qh hw hh
  refine ⟨fromChars_toChars hw hh, ?_⟩
  intro prior
  unfold Size.fromStringPost
  rw [fromChars_toChars hw hh]
  show Size.beq ⟨FP.Finite qw, FP.Finite qh⟩ ⟨FP.Finite qw, FP.Finite qh⟩ = true
  exact sizeBeq_self (by simp) (by simp)

unseal Rat.add Rat.mul Rat.inv Rat.sub in
theorem C2_witness :
    fromChars (Size.toChars ⟨FP.Finite 10, FP.Finite 10⟩) =
      some ⟨FP.Finite 10, FP.Finite 10⟩ ∧
    Size.beq (Size.fromStringPost (mkSize 5 7) (Size.toChars ⟨FP.Finite 10, FP.Finite 10⟩))
      ⟨FP.Finite 10, FP.Finite 10⟩ = true :=
  ⟨(C2_roundtrip.1 10 10 (by decide) (by decide)).1,
   (C2_roundtrip.1 10 10 (by decide) (by decide)).2 (mkSize 5 7)⟩

unseal Rat.add Rat.mul Rat.inv Rat.sub in
/-- C3 (spec-modelled): `fromString` fails exactly when the input does
not parse under the `"<numeral>x<numeral>"` grammar or a parsed numeral
does not round to a finite binary64 value; the failure is surfaced to
the caller (`none`), and on failure the receiver is left in the
deterministic state `(0, 0)` regardless of any prior value.  The
spec's example malformed inputs `"abc"`, `"100"` and `"100xabc"` are
all rejected. -/
theorem C3_fromString_errors :
    (∀ l : List Char, (fromChars l).isSome = goodInput l) ∧
    (∀ l : List Char, ∀ prior : Size, goodInput l = false →
      Size.fromStringPost prior l = ⟨FP.Finite 0, FP.Finite 0⟩) ∧
    fromChars ['a', 'b', 'c'] = none ∧
    fromChars ['1', '0', '0'] = none ∧
    fromChars ['1', '0', '0', 'x', 'a', 'b', 'c'] = none := by
  have hiff : ∀ l : List Char, (fromChars l).isSome = goodInput l := by
    intro l
    unfold fromChars goodInput
    cases hps : parseSizeQ l with
    | none => rfl
    | some p =>
        show (match fpRound p.1, fpRound p.2 with
          | FP.Finite a, FP.Finite b => some (⟨FP.Finite a, FP.Finite b⟩ : Size)
          | _, _ => none).isSome =
          (match fpRound p.1, fpRound p.2 with
            | FP.Finite a, FP.Finite b => true
            | _, _ => false)
        cases fpRound p.1 <;> cases fpRound p.2 <;> rfl
  refine ⟨hiff, ?_, by decide, by decide, by decide⟩
  intro l prior hbad
  unfold Size.fromStringPost
  have hnone : fromChars l = none := by
    have h1 := hiff l
    rw [hbad] at h1
    exact Option.not_isSome_iff_eq_none.mp (by rw [h1]; exact Bool.false_ne_true)
  rw [hnone]

unseal Rat.add Rat.mul Rat.inv Rat.sub in
theorem C3_witness :
    Size.fromStringPost (mkSize 5 7) ['a', 'b', 'c'] = ⟨FP.Finite 0, FP.Finite 0⟩ :=
  C3_fromString_errors.2.1 ['a', 'b', 'c'] (mkSize 5 7) (by decide)
